import Mathlib

/-!
Shallow embedding of `cpe_parser.py`: the escape-sequence encoder `add_quoting`,
the value classifier `unbind_value`, the attribute assembler `unbind`, and the
field splitter `process_cpe_str` (the regex `cpe:2.3:([aho]):([^:]*):...` applied
with `re.match`).  Strings are modelled as `List Char`; the Python `ValueError`s
are modelled as an explicit error type.
-/

namespace Cpe

/-- Error taxonomy: one constructor per distinct `ValueError` raised in
`cpe_parser.py` (invalid overall format in `process_cpe_str`, absent group value
in `unbind`, misplaced asterisk and misplaced question mark in `add_quoting`). -/
inductive Err where
  | MalformedInput
  | MissingAttribute
  | InvalidWildcardPlacement
  | InvalidSingleCharWildcardPlacement
deriving DecidableEq

deriving instance DecidableEq for Except

/-- Python `char.isalnum() or char == "_"`, restricted to ASCII (the ASCII letters
and digits; the data this parser handles is ASCII). -/
def isAlnumUnderscore (char : Char) : Bool :=
  char.isAlphanum || char == '_'

/-- Loop body of `add_quoting` in `cpe_parser.py`.  The `while idx < len(string)`
loop is realized as structural recursion on `remaining`, the suffix `string[idx:]`
of the scanned string; the full `string` is kept as a parameter because the loop
also indexes it directly (`len(string)`, `string[idx - 1]`, and the one-character
slice `string[idx + 1 : idx + 2]`).  Branches:
alphanumeric or underscore: copy, advance one; backslash: copy the two-character
slice `string[idx : idx + 2]` (one character when the backslash is last), advance
two; asterisk: copy and advance one when first or last, otherwise fail; question
mark: when valid, copy and advance one, set `embedded` to false - but this branch
of the source has no `continue`, so control then falls into the final escaping
statements, which append a further escaped copy of the same character, advance the
cursor once more (skipping the following character) and set `embedded` to true;
any other character: append a backslash and the character, advance one. -/
def add_quoting_go (string : List Char) :
    List Char → Nat → Bool → List Char → Except Err (List Char)
  | [], _, _, result => .ok result
  | char :: rest, idx, embedded, result =>
    if isAlnumUnderscore char then
      add_quoting_go string rest (idx + 1) true (result ++ [char])
    else if char == '\\' then
      match rest with
      | [] => .ok (result ++ [char])
      | c2 :: rest2 => add_quoting_go string rest2 (idx + 2) true (result ++ [char, c2])
    else if char == '*' then
      if idx == 0 || idx == string.length - 1 then
        add_quoting_go string rest (idx + 1) true (result ++ [char])
      else .error .InvalidWildcardPlacement
    else if char == '?' then
      if idx == 0 || idx == string.length - 1 ||
          (!embedded && string[idx - 1]? == some '?') ||
          (embedded && string[idx + 1]? == some '?') then
        match rest with
        | [] => .ok (result ++ [char, '\\', char])
        | _ :: rest2 =>
          add_quoting_go string rest2 (idx + 2) true (result ++ [char, '\\', char])
      else .error .InvalidSingleCharWildcardPlacement
    else
      add_quoting_go string rest (idx + 1) true (result ++ ['\\', char])

/-- `add_quoting` from `cpe_parser.py`: the scan starts at index 0 with
`embedded = False` and an empty result. -/
def add_quoting (string : List Char) : Except Err (List Char) :=
  add_quoting_go string string 0 false []

/-- `unbind_value` from `cpe_parser.py`. -/
def unbind_value (value : List Char) : Except Err (List Char) :=
  if value = ['*'] then .ok ['A', 'N', 'Y']
  else if value = ['-'] then .ok ['N', 'A']
  else add_quoting value

/-- Fixed key order of the dictionary built by `unbind` in `cpe_parser.py`. -/
def fieldNames : List String :=
  ["part", "vendor", "product", "version", "update", "edition", "language",
    "sw_edition", "target_sw", "target_hw", "other"]

/-- Loop of `unbind` in `cpe_parser.py` over the (key, raw group) pairs in
insertion order: a structurally absent group raises the missing-attribute error,
otherwise the group is classified by `unbind_value`; the first failure aborts the
whole loop. -/
def unbindFields :
    List (String × Option (List Char)) → Except Err (List (String × List Char))
  | [] => .ok []
  | (_key, none) :: _ => .error .MissingAttribute
  | (key, some raw) :: rest =>
    match unbind_value raw with
    | .error e => .error e
    | .ok quoted =>
      match unbindFields rest with
      | .error e => .error e
      | .ok tail => .ok ((key, quoted) :: tail)

/-- `unbind` from `cpe_parser.py`: the eleven regex groups, in order, keyed by the
fixed attribute names.  The record is an association list, preserving the insertion
order of the Python dict. -/
def unbind (groups : List (Option (List Char))) :
    Except Err (List (String × List Char)) :=
  unbindFields (fieldNames.zip groups)

/-- Character class `[^:]` of the splitting pattern. -/
def notColon (char : Char) : Bool :=
  char != ':'

/-- Greedy matching of `n` further occurrences of `([^:]*):` followed by one final
group `([^:]*)`, exactly as the backtracking-free tail of the splitting pattern in
`process_cpe_str` consumes the input after the part group: each `[^:]*` can only
capture the maximal colon-free run, and each following literal `:` must then be
present; the final group is captured with nothing required after it. -/
def getGroups : Nat → List Char → Option (List (List Char))
  | 0, s => some [s.takeWhile notColon]
  | n + 1, s =>
    if (s.dropWhile notColon).head? = some ':' then
      (getGroups n (s.dropWhile notColon).tail).map (fun gs => s.takeWhile notColon :: gs)
    else none

/-- Character class `[aho]` of the splitting pattern. -/
def partLetter (char : Char) : Bool :=
  char == 'a' || char == 'h' || char == 'o'

/-- `process_cpe_str` from `cpe_parser.py`.  The pattern
`cpe:2.3:([aho]):([^:]*):([^:]*):...:([^:]*)` (eleven groups) is applied with
`re.match`: anchored at the start of the input only.  The `.` between `2` and `3`
is an unescaped regex dot and matches any single character except a newline.
A successful match hands the eleven captured groups to `unbind`; since no group of
this pattern is optional, `re.Match.groups` yields an actual (possibly empty)
string for every group, so each entry is wrapped in `some`.  A failed match raises
the malformed-input error. -/
def process_cpe_str (cpe_string : List Char) :
    Except Err (List (String × List Char)) :=
  match cpe_string with
  | c0 :: c1 :: c2 :: c3 :: c4 :: dot :: c6 :: c7 :: part :: c9 :: rest =>
    if c0 = 'c' ∧ c1 = 'p' ∧ c2 = 'e' ∧ c3 = ':' ∧ c4 = '2' ∧ dot ≠ '\n' ∧
        c6 = '3' ∧ c7 = ':' ∧ partLetter part ∧ c9 = ':' then
      match getGroups 9 rest with
      | some gs => unbind (some [part] :: gs.map some)
      | none => .error .MalformedInput
    else .error .MalformedInput
  | _ => .error .MalformedInput

/-! Helper lemmas about `takeWhile`, `dropWhile` and the splitter. -/

theorem takeWhile_eq_self {α : Type} (p : α → Bool) (s : List α)
    (h : s.dropWhile p = []) : s.takeWhile p = s := by
  have h2 := List.takeWhile_append_dropWhile p s
  rw [h, List.append_nil] at h2
  exact h2

theorem takeWhile_append_all {α : Type} (p : α → Bool) :
    ∀ (s u : List α), s.dropWhile p = [] →
      (s ++ u).takeWhile p = s ++ u.takeWhile p := by
  intro s
  induction s with
  | nil => intro u _; simp
  | cons a l ih =>
    intro u h
    rw [List.dropWhile_cons] at h
    by_cases hp : p a
    · rw [if_pos hp] at h
      rw [List.cons_append, List.takeWhile_cons, if_pos hp, ih u h, List.cons_append]
    · rw [if_neg hp] at h
      exact absurd h (by simp)

theorem takeWhile_dropWhile_append_stop {α : Type} (p : α → Bool) :
    ∀ (s u : List α), s.dropWhile p ≠ [] →
      (s ++ u).takeWhile p = s.takeWhile p ∧
        (s ++ u).dropWhile p = s.dropWhile p ++ u := by
  intro s
  induction s with
  | nil => intro u h; exact absurd rfl h
  | cons a l ih =>
    intro u h
    rw [List.dropWhile_cons] at h
    by_cases hp : p a
    · rw [if_pos hp] at h
      obtain ⟨h1, h2⟩ := ih u h
      constructor
      · rw [List.cons_append, List.takeWhile_cons, if_pos hp, h1,
          List.takeWhile_cons, if_pos hp]
      · rw [List.cons_append, List.dropWhile_cons, if_pos hp, h2,
          List.dropWhile_cons, if_pos hp]
    · constructor
      · rw [List.cons_append, List.takeWhile_cons, if_neg hp,
          List.takeWhile_cons, if_neg hp]
      · rw [List.cons_append, List.dropWhile_cons, if_neg hp,
          List.dropWhile_cons, if_neg hp, List.cons_append]

theorem dropWhile_head_false {α : Type} (p : α → Bool) :
    ∀ (s : List α) (c : α) (r : List α), s.dropWhile p = c :: r → p c = false := by
  intro s
  induction s with
  | nil => intro c r h; exact absurd h (by simp)
  | cons a l ih =>
    intro c r h
    rw [List.dropWhile_cons] at h
    by_cases hp : p a
    · rw [if_pos hp] at h
      exact ih c r h
    · rw [if_neg hp] at h
      injection h with h1 _
      subst h1
      exact Bool.eq_false_iff.mpr hp

theorem count_takeWhile_notColon (s : List Char) :
    (s.takeWhile notColon).count ':' = 0 := by
  rw [List.count_eq_zero]
  intro hmem
  have hp := List.mem_takeWhile_imp hmem
  simp [notColon] at hp

theorem getGroups_length :
    ∀ (n : Nat) (s : List Char) (gs : List (List Char)),
      getGroups n s = some gs → gs.length = n + 1 := by
  intro n
  induction n with
  | zero =>
    intro s gs h
    simp only [getGroups, Option.some.injEq] at h
    rw [← h]
    rfl
  | succ n ih =>
    intro s gs h
    simp only [getGroups] at h
    split at h
    · cases hg : getGroups n ((s.dropWhile notColon).tail) with
      | none => rw [hg] at h; simp at h
      | some gs' =>
        rw [hg] at h
        simp only [Option.map_some', Option.some.injEq] at h
        rw [← h, List.length_cons, ih _ gs' hg]
    · simp at h

theorem getGroups_append :
    ∀ (n : Nat) (s t : List Char) (gs : List (List Char)),
      getGroups n s = some gs → getGroups n (s ++ ':' :: t) = some gs := by
  intro n
  induction n with
  | zero =>
    intro s t gs h
    simp only [getGroups, Option.some.injEq] at h ⊢
    cases hdw : s.dropWhile notColon with
    | nil =>
      rw [takeWhile_append_all notColon s (':' :: t) hdw, List.takeWhile_cons,
        if_neg (by decide), List.append_nil, ← takeWhile_eq_self notColon s hdw]
      exact h
    | cons c r =>
      have hne : s.dropWhile notColon ≠ [] := by rw [hdw]; simp
      rw [(takeWhile_dropWhile_append_stop notColon s (':' :: t) hne).1]
      exact h
  | succ n ih =>
    intro s t gs h
    simp only [getGroups] at h ⊢
    cases hdw : s.dropWhile notColon with
    | nil => rw [hdw] at h; simp at h
    | cons c r =>
      have hne : s.dropWhile notColon ≠ [] := by rw [hdw]; simp
      obtain ⟨ht, hd⟩ := takeWhile_dropWhile_append_stop notColon s (':' :: t) hne
      rw [hdw] at h hd
      rw [hd, ht, List.cons_append, List.head?_cons, List.tail_cons]
      rw [List.head?_cons, List.tail_cons] at h
      by_cases hc : (some c : Option Char) = some ':'
      · rw [if_pos hc] at h ⊢
        cases hg : getGroups n r with
        | none => rw [hg] at h; simp at h
        | some gs' =>
          rw [hg] at h
          rw [ih r t gs' hg]
          exact h
      · rw [if_neg hc] at h
        simp at h

theorem getGroups_none_of_count :
    ∀ (n : Nat) (s : List Char), s.count ':' < n → getGroups n s = none := by
  intro n
  induction n with
  | zero => intro s h; exact absurd h (Nat.not_lt_zero _)
  | succ n ih =>
    intro s h
    simp only [getGroups]
    cases hdw : s.dropWhile notColon with
    | nil => simp
    | cons c r =>
      have hc : c = ':' := by
        have hf := dropWhile_head_false notColon s c r hdw
        simpa [notColon] using hf
      subst hc
      rw [List.head?_cons, List.tail_cons, if_pos rfl]
      have hsplit : s.count ':' = (s.takeWhile notColon).count ':' + (':' :: r).count ':' := by
        conv_lhs => rw [← List.takeWhile_append_dropWhile notColon s, hdw]
        rw [List.count_append]
      have hr : r.count ':' < n := by
        rw [hsplit, count_takeWhile_notColon, List.count_cons] at h
        simp at h
        omega
      rw [ih r hr]
      rfl

theorem process_cpe_str_cons (a0 a1 a2 a3 a4 dot a6 a7 part a9 : Char) (rest : List Char) :
    process_cpe_str (a0 :: a1 :: a2 :: a3 :: a4 :: dot :: a6 :: a7 :: part :: a9 :: rest) =
      if a0 = 'c' ∧ a1 = 'p' ∧ a2 = 'e' ∧ a3 = ':' ∧ a4 = '2' ∧ dot ≠ '\n' ∧
          a6 = '3' ∧ a7 = ':' ∧ partLetter part ∧ a9 = ':' then
        match getGroups 9 rest with
        | some gs => unbind (some [part] :: gs.map some)
        | none => .error .MalformedInput
      else .error .MalformedInput := rfl

theorem add_quoting_go_cons (string : List Char) (char : Char) (rest : List Char)
    (idx : Nat) (embedded : Bool) (result : List Char) :
    add_quoting_go string (char :: rest) idx embedded result =
      if isAlnumUnderscore char then
        add_quoting_go string rest (idx + 1) true (result ++ [char])
      else if char == '\\' then
        match rest with
        | [] => .ok (result ++ [char])
        | c2 :: rest2 => add_quoting_go string rest2 (idx + 2) true (result ++ [char, c2])
      else if char == '*' then
        if idx == 0 || idx == string.length - 1 then
          add_quoting_go string rest (idx + 1) true (result ++ [char])
        else .error .InvalidWildcardPlacement
      else if char == '?' then
        if idx == 0 || idx == string.length - 1 ||
            (!embedded && string[idx - 1]? == some '?') ||
            (embedded && string[idx + 1]? == some '?') then
          match rest with
          | [] => .ok (result ++ [char, '\\', char])
          | _ :: rest2 =>
            add_quoting_go string rest2 (idx + 2) true (result ++ [char, '\\', char])
        else .error .InvalidSingleCharWildcardPlacement
      else
        add_quoting_go string rest (idx + 1) true (result ++ ['\\', char]) := by
  cases rest <;> rfl

theorem add_quoting_go_error_classes_aux :
    ∀ (n : Nat) (rem : List Char), rem.length ≤ n →
      ∀ (str : List Char) (idx : Nat) (emb : Bool) (res : List Char) (e : Err),
        add_quoting_go str rem idx emb res = .error e →
        e = .InvalidWildcardPlacement ∨ e = .InvalidSingleCharWildcardPlacement := by
  intro n
  induction n with
  | zero =>
    intro rem hlen str idx emb res e h
    have hnil : rem = [] := List.eq_nil_of_length_eq_zero (Nat.le_zero.mp hlen)
    subst hnil
    simp [add_quoting_go] at h
  | succ n ih =>
    intro rem hlen str idx emb res e h
    cases rem with
    | nil => simp [add_quoting_go] at h
    | cons char rest =>
      have hr : rest.length ≤ n := by
        rw [List.length_cons] at hlen
        omega
      rw [add_quoting_go_cons] at h
      split at h
      · exact ih rest hr _ _ _ _ _ h
      · split at h
        · cases rest with
          | nil => simp at h
          | cons c2 rest2 =>
            exact ih rest2 (Nat.le_of_succ_le (by simpa using hr)) _ _ _ _ _ h
        · split at h
          · split at h
            · exact ih rest hr _ _ _ _ _ h
            · simp only [Except.error.injEq] at h
              exact Or.inl h.symm
          · split at h
            · split at h
              · cases rest with
                | nil => simp at h
                | cons c2 rest2 =>
                  exact ih rest2 (Nat.le_of_succ_le (by simpa using hr)) _ _ _ _ _ h
              · simp only [Except.error.injEq] at h
                exact Or.inr h.symm
            · exact ih rest hr _ _ _ _ _ h

theorem add_quoting_error_classes (v : List Char) (e : Err)
    (h : add_quoting v = .error e) :
    e = .InvalidWildcardPlacement ∨ e = .InvalidSingleCharWildcardPlacement :=
  add_quoting_go_error_classes_aux v.length v (Nat.le_refl _) v 0 false [] e h

theorem unbind_value_error_classes (v : List Char) (e : Err)
    (h : unbind_value v = .error e) :
    e = .InvalidWildcardPlacement ∨ e = .InvalidSingleCharWildcardPlacement := by
  unfold unbind_value at h
  split at h
  · simp at h
  · split at h
    · simp at h
    · exact add_quoting_error_classes v e h

theorem unbindFields_map_fst :
    ∀ (l : List (String × Option (List Char))) (r : List (String × List Char)),
      unbindFields l = .ok r → r.map Prod.fst = l.map Prod.fst := by
  intro l
  induction l with
  | nil =>
    intro r h
    simp only [unbindFields, Except.ok.injEq] at h
    rw [← h]
    rfl
  | cons kv l ih =>
    intro r h
    obtain ⟨k1, ov⟩ := kv
    cases ov with
    | none => simp [unbindFields] at h
    | some raw =>
      simp only [unbindFields] at h
      cases hu : unbind_value raw with
      | error e => rw [hu] at h; simp at h
      | ok q =>
        rw [hu] at h
        cases hl : unbindFields l with
        | error e => rw [hl] at h; simp at h
        | ok tail =>
          rw [hl] at h
          simp only [Except.ok.injEq] at h
          rw [← h, List.map_cons, List.map_cons, ih tail hl]

theorem unbindFields_append_error :
    ∀ (l₁ : List (String × Option (List Char))) (r : List (String × List Char))
      (key : String) (v : List Char) (l₂ : List (String × Option (List Char))) (e : Err),
      unbindFields l₁ = .ok r → unbind_value v = .error e →
      unbindFields (l₁ ++ (key, some v) :: l₂) = .error e := by
  intro l₁
  induction l₁ with
  | nil =>
    intro r key v l₂ e _ hv
    rw [List.nil_append]
    simp only [unbindFields]
    rw [hv]
  | cons kv l ih =>
    intro r key v l₂ e h hv
    obtain ⟨k1, ov⟩ := kv
    cases ov with
    | none => simp [unbindFields] at h
    | some raw =>
      simp only [unbindFields] at h
      cases hu : unbind_value raw with
      | error e2 => rw [hu] at h; simp at h
      | ok q =>
        rw [hu] at h
        cases hl : unbindFields l with
        | error e2 => rw [hl] at h; simp at h
        | ok tail =>
          rw [List.cons_append]
          simp only [unbindFields]
          rw [hu, ih tail key v l₂ e hl hv]

theorem unbindFields_ne_missing :
    ∀ (l : List (String × Option (List Char))), (∀ kv ∈ l, kv.2 ≠ none) →
      unbindFields l ≠ .error .MissingAttribute := by
  intro l
  induction l with
  | nil => intro _ h; simp [unbindFields] at h
  | cons kv l ih =>
    intro hall h
    obtain ⟨k1, ov⟩ := kv
    cases ov with
    | none => exact (hall (k1, none) (by simp)) rfl
    | some raw =>
      simp only [unbindFields] at h
      cases hu : unbind_value raw with
      | error e =>
        rw [hu] at h
        have he : e = .MissingAttribute := by simpa using h
        subst he
        rcases unbind_value_error_classes raw _ hu with h1 | h1 <;> exact Err.noConfusion h1
      | ok q =>
        rw [hu] at h
        cases hl : unbindFields l with
        | error e =>
          rw [hl] at h
          have he : e = .MissingAttribute := by simpa using h
          exact ih (fun kv hm => hall kv (by simp [hm])) (he ▸ hl)
        | ok tail => rw [hl] at h; simp at h

/-! Claim theorems. -/

/-- C1: the claim states that a valid unescaped question mark (first position, last
position, or continuing a leading run or starting a trailing run) is copied through
unescaped exactly once, with the cursor advanced by exactly one position and the
embedded flag set to false.  The code disagrees: its question-mark branch has no
early exit, so after accepting the character it falls through into the generic
escaping step, which emits a second, escaped copy, advances the cursor a second
time (skipping the following character) and sets the flag to true.  Encoding the
component consisting of a valid leading question mark followed by a letter drops
the letter entirely, and a valid trailing question mark gains an escaped copy. -/
theorem c1_question_mark_double_emission :
    add_quoting ['?', 'a'] = .ok ['?', '\\', '?'] ∧
    add_quoting ['a', '?'] = .ok ['a', '?', '\\', '?'] :=
  ⟨by decide, by decide⟩

/-- C2: the claim states that every input whose first eight characters differ from
the literal text cpe:2.3: fails with the malformed-input error.  The code's
splitting pattern leaves the dot between 2 and 3 unescaped, so it matches any
character at that position: the input below has first eight characters cpe:2a3:
yet parses successfully into a full record. -/
theorem c2_unescaped_dot_accepted :
    List.take 8 ("cpe:2a3:a:b:c:d:e:f:g:h:i:j:k".data) ≠ "cpe:2.3:".data ∧
    process_cpe_str ("cpe:2a3:a:b:c:d:e:f:g:h:i:j:k".data) =
      .ok [("part", ['a']), ("vendor", ['b']), ("product", ['c']), ("version", ['d']),
        ("update", ['e']), ("edition", ['f']), ("language", ['g']), ("sw_edition", ['h']),
        ("target_sw", ['i']), ("target_hw", ['j']), ("other", ['k'])] :=
  ⟨by decide, by decide⟩

/-- C3: the splitter is anchored only at the start of the input: whenever
process_cpe_str succeeds on s, appending a colon and arbitrary further content
yields the very same eleven-entry record; trailing content beyond the eleventh
segment is silently ignored, never rejected. -/
theorem c3_trailing_content_ignored (s t : List Char) (r : List (String × List Char))
    (h : process_cpe_str s = .ok r) :
    process_cpe_str (s ++ ':' :: t) = .ok r := by
  rw [process_cpe_str.eq_def] at h
  split at h
  next a0 a1 a2 a3 a4 dot a6 a7 part a9 rest =>
    simp only [List.cons_append]
    rw [process_cpe_str_cons]
    split at h
    next hcond =>
      rw [if_pos hcond]
      split at h
      next gs hg =>
        rw [getGroups_append 9 rest t gs hg]
        exact h
      next hg => simp at h
    next hcond => simp at h
  next => simp at h

/-- C3, witness: a concrete successful parse is unchanged by appending a colon and
trailing junk. -/
theorem c3_trailing_content_ignored_witness :
    process_cpe_str ("cpe:2.3:a:b:c:d:e:f:g:h:i:j:k".data) =
      .ok [("part", ['a']), ("vendor", ['b']), ("product", ['c']), ("version", ['d']),
        ("update", ['e']), ("edition", ['f']), ("language", ['g']), ("sw_edition", ['h']),
        ("target_sw", ['i']), ("target_hw", ['j']), ("other", ['k'])] ∧
    process_cpe_str ("cpe:2.3:a:b:c:d:e:f:g:h:i:j:k".data ++ ':' :: "junk".data) =
      .ok [("part", ['a']), ("vendor", ['b']), ("product", ['c']), ("version", ['d']),
        ("update", ['e']), ("edition", ['f']), ("language", ['g']), ("sw_edition", ['h']),
        ("target_sw", ['i']), ("target_hw", ['j']), ("other", ['k'])] :=
  ⟨by decide, c3_trailing_content_ignored _ _ _ (by decide)⟩

/-- C4: the claim states that the encoder is idempotent on its own output.  The
code disagrees, again because of the fall-through in the question-mark branch:
encoding a lone valid question mark yields the question mark followed by an
escaped copy, and re-encoding that output appends yet another escaped copy, so the
second application does not return its input unchanged. -/
theorem c4_requote_not_idempotent :
    add_quoting ['?'] = .ok ['?', '\\', '?'] ∧
    add_quoting ['?', '\\', '?'] = .ok ['?', '\\', '?', '?', '\\', '?'] :=
  ⟨by decide, by decide⟩

/-- C5, counterexample to the claim as stated: the parse below contains the
component a*b, on which the encoder fails with the misplaced-asterisk error, yet
the whole parse fails with the misplaced-question-mark error, because the earlier
vendor component x?y is classified first and its failure aborts the parse. -/
theorem c5_earlier_error_counterexample :
    add_quoting ("a*b".data) = .error .InvalidWildcardPlacement ∧
    process_cpe_str ("cpe:2.3:a:x?y:a*b:c:d:e:f:g:h:i:j".data) =
      .error .InvalidSingleCharWildcardPlacement :=
  ⟨by decide, by decide⟩

/-- C5, amended: whenever the scan of a component reaches an unescaped asterisk at
a position that is neither the first nor the last of the component, the encoder
fails with the misplaced-asterisk error, whatever the embedded flag or the
accumulated output; and a CPE string whose splitter succeeds fails with exactly
that error provided every field preceding the offending one (in field order)
classifies without error. -/
theorem c5_interior_asterisk :
    (∀ (str rest : List Char) (idx : Nat) (emb : Bool) (res : List Char),
        idx ≠ 0 → idx ≠ str.length - 1 →
        add_quoting_go str ('*' :: rest) idx emb res = .error .InvalidWildcardPlacement) ∧
    (∀ (dot part : Char) (rest : List Char) (gs : List (List Char))
        (l₁ l₂ : List (String × Option (List Char))) (key : String)
        (v : List Char) (r : List (String × List Char)),
        dot ≠ '\n' → partLetter part = true →
        getGroups 9 rest = some gs →
        fieldNames.zip (some [part] :: gs.map some) = l₁ ++ (key, some v) :: l₂ →
        unbindFields l₁ = .ok r →
        add_quoting v = .error .InvalidWildcardPlacement →
        process_cpe_str ('c' :: 'p' :: 'e' :: ':' :: '2' :: dot :: '3' :: ':' ::
            part :: ':' :: rest) = .error .InvalidWildcardPlacement) := by
  constructor
  · intro str rest idx emb res h0 h1
    rw [add_quoting_go_cons, if_neg (by decide), if_neg (by decide), if_pos (by decide),
      if_neg (by simp [h0, h1])]
  · intro dot part rest gs l₁ l₂ key v r hdot hpart hg hzip hok hv
    rw [process_cpe_str_cons,
      if_pos ⟨rfl, rfl, rfl, rfl, rfl, hdot, rfl, rfl, hpart, rfl⟩, hg]
    show unbindFields (fieldNames.zip (some [part] :: gs.map some)) =
      .error .InvalidWildcardPlacement
    rw [hzip]
    have hvv : unbind_value v = .error .InvalidWildcardPlacement := by
      have hv1 : v ≠ ['*'] := by
        intro hveq
        rw [hveq] at hv
        exact absurd hv (by decide)
      have hv2 : v ≠ ['-'] := by
        intro hveq
        rw [hveq] at hv
        exact absurd hv (by decide)
      unfold unbind_value
      rw [if_neg hv1, if_neg hv2]
      exact hv
    exact unbindFields_append_error l₁ r key v l₂ _ hok hvv

/-- C5, witness: the amended statement applied at a concrete interior asterisk and
at a concrete CPE string whose first failing component holds one. -/
theorem c5_interior_asterisk_witness :
    ((1 : Nat) ≠ 0 ∧ (1 : Nat) ≠ ("a*b".data).length - 1 ∧
      add_quoting_go ("a*b".data) ('*' :: ['b']) 1 true ['a'] =
        .error .InvalidWildcardPlacement) ∧
    (getGroups 9 ("a*b:c:d:e:f:g:h:i:j:k".data) =
        some ["a*b".data, ['c'], ['d'], ['e'], ['f'], ['g'], ['h'], ['i'], ['j'], ['k']] ∧
      unbindFields [("part", some ['a'])] = .ok [("part", ['a'])] ∧
      add_quoting ("a*b".data) = .error .InvalidWildcardPlacement ∧
      process_cpe_str ('c' :: 'p' :: 'e' :: ':' :: '2' :: '.' :: '3' :: ':' :: 'a' :: ':' ::
          "a*b:c:d:e:f:g:h:i:j:k".data) = .error .InvalidWildcardPlacement) := by
  refine ⟨⟨by decide, by decide,
      c5_interior_asterisk.1 ("a*b".data) ['b'] 1 true ['a'] (by decide) (by decide)⟩,
    by decide, by decide, by decide,
    c5_interior_asterisk.2 '.' 'a' ("a*b:c:d:e:f:g:h:i:j:k".data)
      ["a*b".data, ['c'], ['d'], ['e'], ['f'], ['g'], ['h'], ['i'], ['j'], ['k']]
      [("part", some ['a'])]
      [("product", some ['c']), ("version", some ['d']), ("update", some ['e']),
        ("edition", some ['f']), ("language", some ['g']), ("sw_edition", some ['h']),
        ("target_sw", some ['i']), ("target_hw", some ['j']), ("other", some ['k'])]
      "vendor" ("a*b".data) [("part", ['a'])]
      (by decide) (by decide) (by decide) (by decide) (by decide) (by decide)⟩

/-- C6: the value classifier maps the segment consisting of a single asterisk to the
token ANY, the segment consisting of a single hyphen to the token NA, and every
other segment (including the empty one) to the result of the escape-sequence
encoder applied to it. -/
theorem c6_value_classifier :
    unbind_value ['*'] = .ok ['A', 'N', 'Y'] ∧
    unbind_value ['-'] = .ok ['N', 'A'] ∧
    ∀ value : List Char, value ≠ ['*'] → value ≠ ['-'] →
      unbind_value value = add_quoting value := by
  refine ⟨by decide, by decide, ?_⟩
  intro value h1 h2
  unfold unbind_value
  rw [if_neg h1, if_neg h2]

/-- C6, witness: the third part of the classifier statement at a concrete
non-sentinel segment. -/
theorem c6_value_classifier_witness :
    (['x'] : List Char) ≠ ['*'] ∧ (['x'] : List Char) ≠ ['-'] ∧
    unbind_value ['x'] = add_quoting ['x'] :=
  ⟨by decide, by decide, c6_value_classifier.2.2 ['x'] (by decide) (by decide)⟩

/-- C7: every successfully produced record is an ordered mapping holding exactly
the eleven fixed keys part, vendor, product, version, update, edition, language,
sw_edition, target_sw, target_hw, other, in that order, each bound to a string. -/
theorem c7_record_keys (s : List Char) (r : List (String × List Char))
    (h : process_cpe_str s = .ok r) : r.map Prod.fst = fieldNames := by
  rw [process_cpe_str.eq_def] at h
  split at h
  next a0 a1 a2 a3 a4 dot a6 a7 part a9 rest =>
    split at h
    · split at h
      next gs hg =>
        have hlen := getGroups_length 9 rest gs hg
        have hmap := unbindFields_map_fst (fieldNames.zip (some [part] :: gs.map some)) r h
        rw [hmap, List.map_fst_zip]
        simp [fieldNames, hlen]
      next hg => simp at h
    · simp at h
  next => simp at h

/-- C7, witness: the key list of a concrete successful parse. -/
theorem c7_record_keys_witness :
    process_cpe_str ("cpe:2.3:o:v:p:1:u:e:l:s:t:h:o".data) =
      .ok [("part", ['o']), ("vendor", ['v']), ("product", ['p']), ("version", ['1']),
        ("update", ['u']), ("edition", ['e']), ("language", ['l']), ("sw_edition", ['s']),
        ("target_sw", ['t']), ("target_hw", ['h']), ("other", ['o'])] ∧
    List.map Prod.fst
        [(("part" : String), (['o'] : List Char)), ("vendor", ['v']), ("product", ['p']),
          ("version", ['1']), ("update", ['u']), ("edition", ['e']), ("language", ['l']),
          ("sw_edition", ['s']), ("target_sw", ['t']), ("target_hw", ['h']),
          ("other", ['o'])] = fieldNames :=
  ⟨by decide, c7_record_keys ("cpe:2.3:o:v:p:1:u:e:l:s:t:h:o".data) _ (by decide)⟩

/-- C8: an input that begins with the required eight-character marker but holds
fewer than eleven colon-delimited segments after it (that is, fewer than ten
colons after the marker) always fails with the malformed-input error, with no
partial record produced. -/
theorem c8_too_few_segments (rest : List Char) (h : rest.count ':' < 10) :
    process_cpe_str ("cpe:2.3:".data ++ rest) = .error .MalformedInput := by
  show process_cpe_str ('c' :: 'p' :: 'e' :: ':' :: '2' :: '.' :: '3' :: ':' :: rest) =
    .error .MalformedInput
  cases rest with
  | nil => rfl
  | cons part rest1 =>
    cases rest1 with
    | nil => rfl
    | cons a9 rest2 =>
      rw [process_cpe_str_cons]
      by_cases hcond : 'c' = 'c' ∧ 'p' = 'p' ∧ 'e' = 'e' ∧ (':' : Char) = ':' ∧
          '2' = '2' ∧ ('.' : Char) ≠ '\n' ∧ '3' = '3' ∧ (':' : Char) = ':' ∧
          partLetter part ∧ a9 = ':'
      · have hpart := hcond.2.2.2.2.2.2.2.2.1
        have ha9 := hcond.2.2.2.2.2.2.2.2.2
        subst ha9
        rw [if_pos hcond]
        have hpne : (part == ':') = false := by
          have hne : part ≠ ':' := by
            intro hp
            rw [hp] at hpart
            exact absurd hpart (by decide)
          simp [hne]
        have hcount : rest2.count ':' < 9 := by
          rw [List.count_cons, List.count_cons, hpne] at h
          simp at h
          omega
        rw [getGroups_none_of_count 9 rest2 hcount]
      · rw [if_neg hcond]

/-- C8, witness: the prefixed input with only three further segments fails with the
malformed-input error. -/
theorem c8_too_few_segments_witness :
    ("a:b:c".data).count ':' < 10 ∧
    process_cpe_str ("cpe:2.3:".data ++ "a:b:c".data) = .error .MalformedInput :=
  ⟨by decide, c8_too_few_segments ("a:b:c".data) (by decide)⟩

/-- C9: once the splitting pattern matches, each of the eleven captured groups is an
actual (possibly empty) string, never a structurally absent one, so the absent-value
branch of unbind is unreachable and process_cpe_str never raises the
missing-attribute error on any input. -/
theorem c9_missing_attribute_unreachable :
    (∀ (l : List (String × Option (List Char))), (∀ kv ∈ l, kv.2 ≠ none) →
        unbindFields l ≠ .error .MissingAttribute) ∧
    ∀ s : List Char, process_cpe_str s ≠ .error .MissingAttribute := by
  refine ⟨unbindFields_ne_missing, ?_⟩
  intro s h
  rw [process_cpe_str.eq_def] at h
  split at h
  next a0 a1 a2 a3 a4 dot a6 a7 part a9 rest =>
    split at h
    · split at h
      next gs hg =>
        refine unbindFields_ne_missing (fieldNames.zip (some [part] :: gs.map some)) ?_ h
        intro kv hkv
        obtain ⟨k1, ov⟩ := kv
        have hm := (List.of_mem_zip hkv).2
        intro hnone
        simp only [] at hnone
        rw [hnone] at hm
        simp at hm
      next hg => simp at h
    · simp at h
  next => simp at h

/-- C9, witness: the unreachability statement applied at a concrete group list and
at a concrete input. -/
theorem c9_missing_attribute_unreachable_witness :
    ((∀ kv ∈ ([("part", some ['a'])] : List (String × Option (List Char))),
        kv.2 ≠ none) ∧
      unbindFields [("part", some ['a'])] ≠ .error .MissingAttribute) ∧
    process_cpe_str ("cpe".data) ≠ .error .MissingAttribute :=
  ⟨⟨by decide, c9_missing_attribute_unreachable.1 [("part", some ['a'])] (by decide)⟩,
    c9_missing_attribute_unreachable.2 ("cpe".data)⟩

/-- C10: when the scan reaches a lone escape marker in final position, the encoder
does not fail and reads nothing past the end of the string: the two-character slice
starting at the marker is clipped to the single marker, which is copied to the
output as-is, the cursor moves past the end and the scan terminates, so the output
ends with a dangling single escape marker; in particular encoding the two-character
component consisting of a letter and a final backslash returns it unchanged. -/
theorem c10_trailing_backslash :
    (∀ (str : List Char) (idx : Nat) (emb : Bool) (res : List Char),
        add_quoting_go str ['\\'] idx emb res = .ok (res ++ ['\\'])) ∧
    add_quoting ['a', '\\'] = .ok ['a', '\\'] := by
  constructor
  · intro str idx emb res
    rw [add_quoting_go_cons, if_neg (by decide), if_pos (by decide)]
  · decide

end Cpe
